import Mathlib

/-!
Verification of the subscription/episode-matching engine of `src/fakedb.js`
(classes `Subscription` and `Database`).

The JavaScript code is shallowly embedded: JS numbers are modelled as
rationals together with a single non-finite marker (`JSNum.nonfin`, covering
`NaN` and the infinities, which the code only ever distinguishes through
`isFinite`); stateful methods become pure state-passing functions; the
`console.error` rejection path of `Subscription.add` becomes a `Bool`
rejection signal.
-/

/-- A JavaScript number as used by `fakedb.js`: either a finite value
(modelled as a rational) or a non-finite value (`NaN` / `±Infinity`, which
the code only ever inspects through `isFinite`). -/
inductive JSNum where
  | fin (q : ℚ)
  | nonfin
deriving DecidableEq

/-- The global `isFinite` applied to a number value. -/
def jsIsFinite : JSNum → Bool
  | .fin _ => true
  | .nonfin => false

/-- A thread record `{title, link, ep}` (src/fakedb.js, produced by the feed
fetcher and stored in `Subscription.threads`).  The extra `id` field models
JavaScript object identity (reference equality), which is what `Set`-based
deduplication and `includes` use for objects; two structurally equal records
with different `id`s model two distinct JS objects. -/
structure Thread where
  title : String
  link : String
  ep : List JSNum
  id : ℕ
deriving DecidableEq

/-- The mutable state of a `Subscription` instance (src/fakedb.js lines
11-22).  `latest` is an `Option JSNum` because `threads[0].ep.slice(-1)[0]`
is `undefined` (`none`) when the topmost thread's `ep` is empty; the
constructor initialises it to the number `-1` (`some (.fin (-1))`). -/
structure Subscription where
  name : String
  keywords : List String
  sid : Option String
  threads : List Thread
  latest : Option JSNum
deriving DecidableEq

/-- Rational subtraction, written out on numerators and denominators (the
library's opaque arithmetic is avoided so that concrete runs of the model
can be checked by evaluation). -/
def ratSub (a b : ℚ) : ℚ := mkRat (a.num * b.den - b.num * a.den) (a.den * b.den)

/-- JS subtraction of two possibly-`undefined` number values, as in the sort
comparator `b.ep[0] - a.ep[0]`: any `undefined` or non-finite operand gives
`NaN`. -/
def jsSub : Option JSNum → Option JSNum → JSNum
  | some (.fin a), some (.fin b) => .fin (ratSub a b)
  | _, _ => .nonfin

/-- Whether a comparator result keeps the pair in order under
`Array.prototype.sort`: a negative result means "first before second", zero
or `NaN` means "leave the (stable) order unchanged". -/
def cmpKeeps : JSNum → Bool
  | .fin q => decide (q ≤ 0)
  | .nonfin => true

/-- The comparator `(a, b) => b.ep[0] - a.ep[0]` of `Subscription.sort`
(src/fakedb.js line 25), phrased as "may `a` stay before `b`". -/
def threadLe (a b : Thread) : Bool := cmpKeeps (jsSub b.ep.head? a.ep.head?)

/-- Insert into a sorted list, keeping `x` before the first element it
compares `le` to; used to model the stable `Array.prototype.sort`. -/
def orderedInsertB (le : α → α → Bool) (x : α) : List α → List α
  | [] => [x]
  | y :: ys => if le x y then x :: y :: ys else y :: orderedInsertB le x ys

/-- Stable insertion sort; with a consistent comparator it produces the same
list as the (stable) `Array.prototype.sort` of modern JS engines. -/
def insertionSortB (le : α → α → Bool) : List α → List α
  | [] => []
  | x :: xs => orderedInsertB le x (insertionSortB le xs)

/-- `Subscription.sort` (src/fakedb.js lines 24-26): stable sort of
`threads` by descending `ep[0]`. -/
def Subscription.sort (s : Subscription) : Subscription :=
  { s with threads := insertionSortB threadLe s.threads }

/-- `threads[0].ep.slice(-1)[0]` evaluated on a thread list: the last `ep`
entry of the topmost thread (`none` models `undefined`). -/
def latestOf : List Thread → Option JSNum
  | [] => none
  | t0 :: _ => t0.ep.getLast?

/-- `Subscription.add` (src/fakedb.js lines 28-36).  Validates
`thread.ep.every(isFinite) && thread.title && thread.link`; if valid,
pushes the thread, re-sorts and recomputes `latest`, returning `true`;
otherwise leaves the state unchanged and returns `false` (modelling the
non-fatal `console.error` rejection). -/
def Subscription.add (s : Subscription) (t : Thread) : Subscription × Bool :=
  if t.ep.all jsIsFinite && t.title != "" && t.link != "" then
    let ts := insertionSortB threadLe (s.threads ++ [t])
    ({ s with threads := ts, latest := latestOf ts }, true)
  else
    (s, false)

/-- One observable call on a subscription: `add(thread)` or `sort()`. -/
inductive Op where
  | add (t : Thread)
  | sortCall

/-- Apply one call to the subscription state. -/
def applyOp (s : Subscription) : Op → Subscription
  | .add t => (s.add t).1
  | .sortCall => s.sort

/-- Apply a finite sequence of `add`/`sort` calls. -/
def runOps (s : Subscription) (ops : List Op) : Subscription :=
  ops.foldl applyOp s

/-- Whether an operation's argument respects the data-model constraint that
a thread carries at least one episode number (spec §3: `ep` non-empty). -/
def opEpNonempty : Op → Bool
  | .add t => !t.ep.isEmpty
  | .sortCall => true

/-- The first episode number of a thread, when it exists and is finite. -/
def epFinKey (t : Thread) : Option ℚ :=
  match t.ep.head? with
  | some (.fin q) => some q
  | _ => none

/-- The thread list is sorted by descending value of `ep[0]` (and every
compared `ep[0]` exists and is finite). -/
def sortedByEpDesc (l : List Thread) : Prop :=
  l.Pairwise fun a b => ∃ p q, epFinKey a = some p ∧ epFinKey b = some q ∧ q ≤ p

/-- Split a character list at every occurrence of `c`, as JS
`String.prototype.split(',')` does (`""` splits to `[""]`, separators at the
ends produce empty pieces). -/
def splitCharGo (c : Char) : List Char → List Char → List String
  | [], cur => [String.mk cur]
  | a :: r, cur =>
    if a = c then String.mk cur :: splitCharGo c r []
    else splitCharGo c r (cur ++ [a])

/-- `str.split(c)` on the characters of a string. -/
def splitChar (c : Char) (cs : List Char) : List String := splitCharGo c cs []

/-- Split at every run of two or more dots, as `split(/\.{2,}/)`
(src/fakedb.js line 72): a single dot stays inside its piece, a run of two
or more dots is a separator. -/
def splitDotsGo : List Char → List Char → ℕ → List String
  | [], cur, pend =>
    if pend ≥ 2 then [String.mk cur, ""]
    else [String.mk (cur ++ List.replicate pend '.')]
  | c :: r, cur, pend =>
    if c = '.' then splitDotsGo r cur (pend + 1)
    else if pend ≥ 2 then String.mk cur :: splitDotsGo r [c] 0
    else splitDotsGo r (cur ++ List.replicate pend '.' ++ [c]) 0

/-- `tok.split(/\.{2,}/)` on a token string. -/
def splitDots (s : String) : List String := splitDotsGo s.data [] 0

/-- Strip leading and trailing whitespace, as the `Number` conversion does. -/
def jsTrim (cs : List Char) : List Char :=
  ((cs.dropWhile Char.isWhitespace).reverse.dropWhile Char.isWhitespace).reverse

/-- Decimal digits to a natural number. -/
def digitsToNat (cs : List Char) : ℕ :=
  cs.foldl (fun n c => 10 * n + (c.toNat - '0'.toNat)) 0

/-- Parse an unsigned decimal literal (`123`, `123.45`, `.5`, `7.`); any
other shape is not a numeric literal. -/
def parseDecCore (cs : List Char) : Option ℚ :=
  let d1 := cs.takeWhile Char.isDigit
  let rest := cs.dropWhile Char.isDigit
  match rest with
  | [] => if d1.isEmpty then none else some (mkRat (Int.ofNat (digitsToNat d1)) 1)
  | '.' :: r =>
    let d2 := r.takeWhile Char.isDigit
    let rest2 := r.dropWhile Char.isDigit
    if rest2.isEmpty && !(d1.isEmpty && d2.isEmpty) then
      some (mkRat (Int.ofNat (digitsToNat d1 * 10 ^ d2.length + digitsToNat d2)) (10 ^ d2.length))
    else none
  | _ => none

/-- The JS `Number(string)` conversion for the literal shapes the selector
grammar uses: trimmed empty string is `0`, an optionally signed decimal
literal is its value, anything else (including the hexadecimal, exponent
and `Infinity` forms, which no selector token takes) is non-finite. -/
def jsNumber (s : String) : JSNum :=
  let t := jsTrim s.data
  if t.isEmpty then .fin 0
  else
    match t with
    | '-' :: r =>
      match parseDecCore r with
      | some q => .fin (Rat.neg q)
      | none => .nonfin
    | '+' :: r =>
      match parseDecCore r with
      | some q => .fin q
      | none => .nonfin
    | cs =>
      match parseDecCore cs with
      | some q => .fin q
      | none => .nonfin

/-- Decimal digits of a fractional part in `[0, 1)`, with fuel (every value
parsed from a decimal literal terminates well within the fuel). -/
def fracDigits : ℚ → ℕ → List Char
  | _, 0 => []
  | q, n + 1 =>
    if q = 0 then []
    else
      let q10 := mkRat (q.num * 10) q.den
      let d := q10.floor
      Char.ofNat ('0'.toNat + d.toNat) :: fracDigits (ratSub q10 (mkRat d 1)) n

/-- `String(n)` for a number value, as used by the default sort comparator:
non-finite values print as a non-numeric word, finite values in plain
decimal notation. -/
def jsStr : JSNum → String
  | .nonfin => "NaN"
  | .fin q =>
    let sgn := if q.num < 0 then "-" else ""
    let aq : ℚ := if q.num < 0 then Rat.neg q else q
    let ds := fracDigits (ratSub aq (mkRat aq.floor 1)) 30
    sgn ++ toString aq.floor.toNat ++ (if ds.isEmpty then "" else "." ++ String.mk ds)

/-- Lexicographic comparison of character lists by code point, as JS string
`<` compares the (here ASCII) strings of the default sort comparator. -/
def charsLe : List Char → List Char → Bool
  | [], _ => true
  | _ :: _, [] => false
  | a :: as, b :: bs =>
    if a.toNat < b.toNat then true
    else if b.toNat < a.toNat then false
    else charsLe as bs

/-- Lexicographic `≤` on strings. -/
def strLeB (a b : String) : Bool := charsLe a.data b.data

/-- The default `Array.prototype.sort` comparator on numbers: compare their
string forms lexicographically ("may `x` stay before `y`"). -/
def strNumLe (x y : JSNum) : Bool := strLeB (jsStr x) (jsStr y)

/-- `ep.includes(v)` where `v` may be `undefined` (from destructuring a
too-short array): `undefined` matches no number element. -/
def epContains (ep : List JSNum) : Option JSNum → Bool
  | none => false
  | some x => ep.contains x

/-- `Array.prototype.findIndex`: the index of the first match, or `-1`. -/
def findIndexJS (p : Thread → Bool) (l : List Thread) : Int :=
  match l.findIdx? p with
  | some i => (i : Int)
  | none => -1

/-- `Array.prototype.slice(a, b)` with JS index semantics: negative indices
count from the end, indices are clamped to `[0, length]`, and an empty list
results when the start is not before the end. -/
def jsSlice (l : List α) (a b : Int) : List α :=
  let n : Int := l.length
  let s := if a < 0 then max (n + a) 0 else min a n
  let e := if b < 0 then max (n + b) 0 else min b n
  (l.drop s.toNat).take (e.toNat - s.toNat)

/-- Modelled from the spec: `XSet.prototype.union(list, true)` from
`src/utils.js`, which is not part of the sources; spec §4.2 specifies union
with de-duplication by thread identity, preserving the order in which a
thread is first encountered (stable-set semantics). -/
def xsetUnion (c : List Thread) (l : List Thread) : List Thread :=
  l.foldl (fun acc t => if t ∈ acc then acc else acc ++ [t]) c

/-- Resolution of one selector token against `this.threads`
(src/fakedb.js lines 67-79): a token whose `Number` conversion is finite
selects every thread whose `ep` includes that number; otherwise the token is
split on two-or-more dots, the parts are converted with `Number` and sorted
with the DEFAULT comparator (lexicographic on string forms), the first two
sorted parts become `[epi, epj]`, and the result is
`threads.slice(head, tail + 1)` with `head` the first index whose `ep`
includes `epj` and `tail` the first index whose `ep` includes `epi`. -/
def resolveToken (s : Subscription) (ep : String) : List Thread :=
  let n := jsNumber ep
  if jsIsFinite n then s.threads.filter fun th => th.ep.contains n
  else
    let parts := insertionSortB strNumLe ((splitDots ep).map jsNumber)
    let head := findIndexJS (fun th => epContains th.ep parts[1]?) s.threads
    let tail := findIndexJS (fun th => epContains th.ep parts[0]?) s.threads
    jsSlice s.threads head (tail + 1)

/-- `Subscription.getThreads(epstr)` (src/fakedb.js lines 60-82): `"all"` or
a falsy selector returns `this.threads` itself; otherwise the selector is
split on commas and each token's resolution is unioned into an `XSet`,
which is returned as a list. -/
def Subscription.getThreads (s : Subscription) (epstr : String) : List Thread :=
  if epstr = "" ∨ epstr = "all" then s.threads
  else (splitChar ',' epstr.data).foldl (fun coll ep => xsetUnion coll (resolveToken s ep)) []

/-- `this.keywords.join(',')` (src/fakedb.js line 40). -/
def joinComma (ks : List String) : String := String.intercalate "," ks

/-- The chained-rehash loop of `Subscription.generateSid` (src/fakedb.js
lines 41-43), with explicit fuel since the source's `while` loop has no
termination guarantee: while the candidate is among the existing sids,
recompute `hash(name, sid)`; `none` means the fuel ran out before a fresh
sid was found.  The `hash` function itself lives in `src/utils.js`, which is
not part of the sources; per spec §4.3 it is an arbitrary pure
`String → String → String` function, so it is taken as a parameter. -/
def sidLoop (hash : String → String → String) (name : String)
    (existed : List String) : ℕ → String → Option String
  | 0, sid => if sid ∈ existed then none else some sid
  | n + 1, sid =>
    if sid ∈ existed then sidLoop hash name existed n (hash name sid)
    else some sid

/-- `Subscription.generateSid(existedSids)` (src/fakedb.js lines 38-44): the
sid value assigned, starting from `hash(name, keywords.join(','))`. -/
def generateSid (hash : String → String → String) (name : String)
    (keywords : List String) (existedSids : List String) (fuel : ℕ) : Option String :=
  sidLoop hash name existedSids fuel (hash name (joinComma keywords))

/-- The configuration collaborator: `config.get("destination")`,
`config.get("client")`, `config.get("jsonrpc")`, each possibly undefined. -/
structure Config where
  destination : Option String
  client : Option String
  jsonrpc : Option String
deriving DecidableEq

/-- The `{client, destination, jsonrpc}` options argument of
`Database.download`, each field possibly absent. -/
structure DownloadOptions where
  client : Option String
  destination : Option String
  jsonrpc : Option String
deriving DecidableEq

/-- JS `a || b` on possibly-undefined strings: a present, non-empty (truthy)
left operand wins, otherwise the right operand is used. -/
def jsOrOpt (a b : Option String) : Option String :=
  match a with
  | some s => if s = "" then b else some s
  | none => b

/-- The external process launched by `Database.download`: `spawn('node',
[script, JSON.stringify(thread), JSON.stringify({dest, jsonrpc})])`,
recorded structurally (command, resolved script path relative to the source
directory, and the two serialized arguments' contents). -/
structure SpawnCall where
  cmd : String
  script : String
  threadArg : Thread
  destArg : Option String
  jsonrpcArg : Option String
deriving DecidableEq

/-- `Database.download(thread, {client, destination, jsonrpc})`
(src/fakedb.js lines 145-164): resolves the effective options against the
config defaults with `||`, builds the downloader script path
`downloaders/${dclient}.js`, and unconditionally spawns `node` on it — there
is no validation of the client and no error path before the spawn.
An undefined client interpolates as the string `"undefined"`. -/
def Database.download (cfg : Config) (thread : Thread) (opts : DownloadOptions) : SpawnCall :=
  let dest := jsOrOpt opts.destination cfg.destination
  let dclient := jsOrOpt opts.client cfg.client
  let djsonrpc := jsOrOpt opts.jsonrpc cfg.jsonrpc
  { cmd := "node"
    script := "downloaders/" ++ dclient.getD "undefined" ++ ".js"
    threadArg := thread
    destArg := dest
    jsonrpcArg := djsonrpc }

/-- `Database.isSupportedClient(client)` (src/fakedb.js lines 181-183):
membership in the closed set `{"aria2", "deluge"}`. -/
def Database.isSupportedClient (client : String) : Bool :=
  ["aria2", "deluge"].contains client

/-- Concrete thread with episode 10 (object id 40). -/
def thTen : Thread := ⟨"E10", "l10", [JSNum.fin 10], 40⟩

/-- Concrete thread with episode 2 (object id 41). -/
def thTwo : Thread := ⟨"E2", "l2", [JSNum.fin 2], 41⟩

/-- A subscription holding threads for episodes 10 and 2, sorted descending
as `add` maintains them. -/
def subTenTwo : Subscription := ⟨"Show", ["kw"], none, [thTen, thTwo], some (JSNum.fin 10)⟩

/-- Concrete thread with episode 3 (object id 30). -/
def thThree : Thread := ⟨"E3", "l3", [JSNum.fin 3], 30⟩

/-- Concrete thread with episode 2 (object id 31). -/
def thTwoB : Thread := ⟨"E2b", "l2b", [JSNum.fin 2], 31⟩

/-- A subscription holding threads for episodes 3 and 2; no thread carries
episode 4. -/
def subThreeTwo : Subscription := ⟨"Show", ["kw"], none, [thThree, thTwoB], some (JSNum.fin 3)⟩

/-- Scenario A thread `{title:"E1", link:"l1", ep:[1]}` (object id 1). -/
def thE1 : Thread := ⟨"E1", "l1", [JSNum.fin 1], 1⟩

/-- Scenario A thread `{title:"E2", link:"l2", ep:[2]}` (object id 2). -/
def thE2 : Thread := ⟨"E2", "l2", [JSNum.fin 2], 2⟩

/-- A freshly constructed subscription (empty thread list, `latest = -1`). -/
def subEmpty : Subscription := ⟨"Show", ["kw"], none, [], some (JSNum.fin (-1))⟩

/-- A thread with non-empty title and link but an empty `ep` list. -/
def thNoEp : Thread := ⟨"t", "l", [], 9⟩

/-- A thread whose `ep` contains a non-finite value. -/
def thBadEp : Thread := ⟨"Bad", "l3", [JSNum.nonfin], 3⟩

/-- A concrete pure hash function for exercising the sid generator. -/
def hashW (a b : String) : String := a ++ "#" ++ b

/-- Every stored thread has an existing, finite first episode number (what
`add`'s validation guarantees for data-model threads), and the list is
sorted by descending `ep[0]`. -/
def SubThreadsOk (s : Subscription) : Prop :=
  (∀ t ∈ s.threads, (epFinKey t).isSome) ∧ sortedByEpDesc s.threads

/-- `latest` is `-1` when no threads exist, and otherwise equals the last
`ep` entry of the topmost thread. -/
def SubLatestOk (s : Subscription) : Prop :=
  (s.threads = [] → s.latest = some (JSNum.fin (-1))) ∧
  ∀ t0, s.threads.head? = some t0 → s.latest = t0.ep.getLast?

theorem orderedInsertB_perm (le : α → α → Bool) (x : α) (l : List α) :
    List.Perm (orderedInsertB le x l) (x :: l) := by
  induction l with
  | nil => exact List.Perm.refl _
  | cons y ys ih =>
    rw [orderedInsertB]
    by_cases h : le x y = true
    · rw [if_pos h]
    · rw [if_neg h]
      exact (ih.cons y).trans (List.Perm.swap x y ys)

theorem insertionSortB_perm (le : α → α → Bool) (l : List α) :
    List.Perm (insertionSortB le l) l := by
  induction l with
  | nil => exact List.Perm.refl _
  | cons x xs ih => exact (orderedInsertB_perm le x _).trans (ih.cons x)

theorem ratSub_eq (a b : ℚ) : ratSub a b = a - b := by
  have ha : ((a.den : ℚ)) ≠ 0 := by
    exact_mod_cast a.den_nz
  have hb : ((b.den : ℚ)) ≠ 0 := by
    exact_mod_cast b.den_nz
  rw [ratSub, Rat.mkRat_eq_div]
  push_cast
  conv_rhs => rw [← Rat.num_div_den a, ← Rat.num_div_den b]
  rw [div_sub_div _ _ ha hb]
  ring_nf

theorem epFinKey_some {t : Thread} {p : ℚ} (h : epFinKey t = some p) :
    t.ep.head? = some (JSNum.fin p) := by
  unfold epFinKey at h
  rcases ht : t.ep.head? with _ | n
  · rw [ht] at h
    simp at h
  · rcases n with q | _
    · rw [ht] at h
      simp only [Option.some.injEq] at h
      rw [h]
    · rw [ht] at h
      simp at h

theorem threadLe_eq {a b : Thread} {p q : ℚ} (ha : epFinKey a = some p)
    (hb : epFinKey b = some q) : threadLe a b = decide (q ≤ p) := by
  rw [threadLe, epFinKey_some ha, epFinKey_some hb]
  show cmpKeeps (JSNum.fin (ratSub q p)) = decide (q ≤ p)
  rw [cmpKeeps]
  simp [ratSub_eq, sub_nonpos]

theorem orderedInsertB_sorted (x : Thread) (l : List Thread) :
    (epFinKey x).isSome → (∀ t ∈ l, (epFinKey t).isSome) →
    sortedByEpDesc l → sortedByEpDesc (orderedInsertB threadLe x l) := by
  induction l with
  | nil =>
    intro _ _ _
    unfold sortedByEpDesc orderedInsertB
    exact List.pairwise_singleton _ _
  | cons y ys ih =>
    intro hx hl hs
    obtain ⟨px, hpx⟩ := Option.isSome_iff_exists.mp hx
    obtain ⟨py, hpy⟩ := Option.isSome_iff_exists.mp (hl y (by simp))
    unfold sortedByEpDesc at hs
    rw [List.pairwise_cons] at hs
    obtain ⟨hyRest, hsTail⟩ := hs
    rw [orderedInsertB]
    by_cases hle : threadLe x y = true
    · rw [if_pos hle]
      have hpyx : py ≤ px := by
        rw [threadLe_eq hpx hpy] at hle
        exact of_decide_eq_true hle
      unfold sortedByEpDesc
      rw [List.pairwise_cons]
      constructor
      · intro z hz
        rcases List.mem_cons.mp hz with rfl | hz2
        · exact ⟨px, py, hpx, hpy, hpyx⟩
        · obtain ⟨p2, qz, hp2, hqz, hle2⟩ := hyRest z hz2
          rw [hpy] at hp2
          cases hp2
          exact ⟨px, qz, hpx, hqz, le_trans hle2 hpyx⟩
      · exact List.pairwise_cons.mpr ⟨hyRest, hsTail⟩
    · rw [if_neg hle]
      have hpxy : px < py := by
        rw [threadLe_eq hpx hpy] at hle
        exact lt_of_not_le (by simpa using hle)
      unfold sortedByEpDesc
      rw [List.pairwise_cons]
      constructor
      · intro z hz
        have hz2 : z ∈ x :: ys := (orderedInsertB_perm threadLe x ys).mem_iff.mp hz
        rcases List.mem_cons.mp hz2 with rfl | hz3
        · exact ⟨py, px, hpy, hpx, le_of_lt hpxy⟩
        · exact hyRest z hz3
      · exact ih hx (fun t ht => hl t (by simp [ht])) hsTail

theorem insertionSortB_sorted (l : List Thread) :
    (∀ t ∈ l, (epFinKey t).isSome) → sortedByEpDesc (insertionSortB threadLe l) := by
  induction l with
  | nil =>
    intro _
    unfold sortedByEpDesc insertionSortB
    exact List.Pairwise.nil
  | cons x xs ih =>
    intro hl
    rw [insertionSortB]
    refine orderedInsertB_sorted x _ (hl x (by simp)) ?_ (ih fun t ht => hl t (by simp [ht]))
    intro t ht
    exact hl t (by simp [(insertionSortB_perm threadLe xs).mem_iff.mp ht])

theorem insertionSortB_id (l : List Thread) :
    sortedByEpDesc l → insertionSortB threadLe l = l := by
  induction l with
  | nil => intro _; rfl
  | cons x xs ih =>
    intro hs
    unfold sortedByEpDesc at hs
    rw [List.pairwise_cons] at hs
    obtain ⟨hxRest, hsTail⟩ := hs
    rw [insertionSortB, ih hsTail]
    cases xs with
    | nil => rfl
    | cons y ys =>
      obtain ⟨px, py, hpx, hpy, hle⟩ := hxRest y (by simp)
      rw [orderedInsertB, if_pos]
      rw [threadLe_eq hpx hpy]
      exact decide_eq_true hle

theorem add_eq_pos (s : Subscription) (t : Thread)
    (hc : (t.ep.all jsIsFinite && t.title != "" && t.link != "") = true) :
    s.add t = ({ s with
                  threads := insertionSortB threadLe (s.threads ++ [t]),
                  latest := latestOf (insertionSortB threadLe (s.threads ++ [t])) }, true) := by
  rw [Subscription.add, if_pos hc]

theorem add_eq_neg (s : Subscription) (t : Thread)
    (hc : ¬ ((t.ep.all jsIsFinite && t.title != "" && t.link != "") = true)) :
    s.add t = (s, false) := by
  rw [Subscription.add, if_neg hc]

theorem add_threadsOk (s : Subscription) (t : Thread) (hne : t.ep ≠ [])
    (h : SubThreadsOk s) : SubThreadsOk (s.add t).1 := by
  by_cases hc : (t.ep.all jsIsFinite && t.title != "" && t.link != "") = true
  · rw [add_eq_pos s t hc]
    have htfin : (epFinKey t).isSome := by
      have hall : t.ep.all jsIsFinite = true := by
        simp only [Bool.and_eq_true] at hc
        exact hc.1.1
      rcases he : t.ep with _ | ⟨e, es⟩
      · exact absurd he hne
      · have hef : jsIsFinite e = true := by
          rw [he, List.all_cons, Bool.and_eq_true] at hall
          exact hall.1
        cases e with
        | fin q =>
          unfold epFinKey
          rw [he]
          simp
        | nonfin => simp [jsIsFinite] at hef
    have hgood : ∀ u ∈ s.threads ++ [t], (epFinKey u).isSome := by
      intro u hu
      rcases List.mem_append.mp hu with h1 | h1
      · exact h.1 u h1
      · rw [List.mem_singleton.mp h1]
        exact htfin
    constructor
    · intro u hu
      exact hgood u ((insertionSortB_perm threadLe _).mem_iff.mp hu)
    · exact insertionSortB_sorted _ hgood
  · rw [add_eq_neg s t hc]
    exact h

theorem sort_eq_self (s : Subscription) (h : SubThreadsOk s) : s.sort = s := by
  rw [Subscription.sort, insertionSortB_id _ h.2]

theorem applyOp_threadsOk (s : Subscription) (op : Op) (hop : opEpNonempty op = true)
    (h : SubThreadsOk s) : SubThreadsOk (applyOp s op) := by
  cases op with
  | add t =>
    have hne : t.ep ≠ [] := by
      simp only [opEpNonempty, Bool.not_eq_true'] at hop
      intro hnil
      rw [hnil] at hop
      simp at hop
    exact add_threadsOk s t hne h
  | sortCall =>
    show SubThreadsOk s.sort
    rw [sort_eq_self s h]
    exact h

theorem applyOp_latestOk (s : Subscription) (op : Op) (hop : opEpNonempty op = true)
    (ht : SubThreadsOk s) (h : SubLatestOk s) : SubLatestOk (applyOp s op) := by
  cases op with
  | sortCall =>
    show SubLatestOk s.sort
    rw [sort_eq_self s ht]
    exact h
  | add t =>
    show SubLatestOk (s.add t).1
    by_cases hc : (t.ep.all jsIsFinite && t.title != "" && t.link != "") = true
    · rw [add_eq_pos s t hc]
      have hlen : insertionSortB threadLe (s.threads ++ [t]) ≠ [] := by
        have hl := (insertionSortB_perm threadLe (s.threads ++ [t])).length_eq
        intro hnil
        rw [hnil] at hl
        simp at hl
      constructor
      · intro hempty
        exact absurd hempty hlen
      · intro t0 h0
        rcases hts : insertionSortB threadLe (s.threads ++ [t]) with _ | ⟨u, us⟩
        · exact absurd hts hlen
        · have h0' : (insertionSortB threadLe (s.threads ++ [t])).head? = some t0 := h0
          rw [hts] at h0'
          have h0u : u = t0 := by simpa using h0'
          show latestOf (u :: us) = t0.ep.getLast?
          rw [latestOf, h0u]
    · rw [add_eq_neg s t hc]
      exact h

theorem runOps_threadsOk (ops : List Op) :
    ∀ s : Subscription, ops.all opEpNonempty = true → SubThreadsOk s →
      SubThreadsOk (runOps s ops) := by
  induction ops with
  | nil =>
    intro s _ h
    exact h
  | cons op ops ih =>
    intro s hall h
    rw [List.all_cons, Bool.and_eq_true] at hall
    show SubThreadsOk (List.foldl applyOp s (op :: ops))
    rw [List.foldl_cons]
    exact ih (applyOp s op) hall.2 (applyOp_threadsOk s op hall.1 h)

theorem runOps_latestOk (ops : List Op) :
    ∀ s : Subscription, ops.all opEpNonempty = true → SubThreadsOk s → SubLatestOk s →
      SubLatestOk (runOps s ops) := by
  induction ops with
  | nil =>
    intro s _ _ h
    exact h
  | cons op ops ih =>
    intro s hall ht h
    rw [List.all_cons, Bool.and_eq_true] at hall
    show SubLatestOk (List.foldl applyOp s (op :: ops))
    rw [List.foldl_cons]
    exact ih (applyOp s op) hall.2 (applyOp_threadsOk s op hall.1 ht)
      (applyOp_latestOk s op hall.1 ht h)

theorem sidLoop_not_mem (hash : String → String → String) (name : String)
    (existed : List String) :
    ∀ (f : ℕ) (cur s : String), sidLoop hash name existed f cur = some s →
      s ∉ existed := by
  intro f
  induction f with
  | zero =>
    intro cur s h
    rw [sidLoop] at h
    by_cases hm : cur ∈ existed
    · rw [if_pos hm] at h
      exact absurd h (by simp)
    · rw [if_neg hm] at h
      rw [← Option.some.injEq cur s |>.mp h]
      exact hm
  | succ n ih =>
    intro cur s h
    rw [sidLoop] at h
    by_cases hm : cur ∈ existed
    · rw [if_pos hm] at h
      exact ih _ s h
    · rw [if_neg hm] at h
      rw [← Option.some.injEq cur s |>.mp h]
      exact hm

theorem sidLoop_fixed (hash : String → String → String) (name : String)
    (existed : List String) (cur : String) (hm : cur ∉ existed) :
    ∀ f : ℕ, sidLoop hash name existed f cur = some cur := by
  intro f
  cases f with
  | zero => rw [sidLoop, if_neg hm]
  | succ n => rw [sidLoop, if_neg hm]

theorem sidLoop_det (hash : String → String → String) (name : String)
    (existed : List String) :
    ∀ (f1 f2 : ℕ) (cur s1 s2 : String),
      sidLoop hash name existed f1 cur = some s1 →
      sidLoop hash name existed f2 cur = some s2 → s1 = s2 := by
  intro f1
  induction f1 with
  | zero =>
    intro f2 cur s1 s2 h1 h2
    rw [sidLoop] at h1
    by_cases hm : cur ∈ existed
    · rw [if_pos hm] at h1
      exact absurd h1 (by simp)
    · rw [if_neg hm] at h1
      rw [sidLoop_fixed hash name existed cur hm f2] at h2
      rw [← Option.some.injEq cur s1 |>.mp h1, ← Option.some.injEq cur s2 |>.mp h2]
  | succ n ih =>
    intro f2 cur s1 s2 h1 h2
    by_cases hm : cur ∈ existed
    · rw [sidLoop, if_pos hm] at h1
      cases f2 with
      | zero =>
        rw [sidLoop, if_pos hm] at h2
        exact absurd h2 (by simp)
      | succ m =>
        rw [sidLoop, if_pos hm] at h2
        exact ih m _ s1 s2 h1 h2
    · rw [sidLoop, if_neg hm] at h1
      rw [sidLoop_fixed hash name existed cur hm f2] at h2
      rw [← Option.some.injEq cur s1 |>.mp h1, ← Option.some.injEq cur s2 |>.mp h2]

theorem xsetUnion_cons (c : List Thread) (t : Thread) (l : List Thread) :
    xsetUnion c (t :: l) = xsetUnion (if t ∈ c then c else c ++ [t]) l := by
  rw [xsetUnion, List.foldl_cons]
  rfl

theorem xsetUnion_append (c l1 l2 : List Thread) :
    xsetUnion c (l1 ++ l2) = xsetUnion (xsetUnion c l1) l2 := by
  rw [xsetUnion, List.foldl_append]
  rfl

theorem xsetUnion_nodup (l : List Thread) :
    ∀ c : List Thread, c.Nodup → (xsetUnion c l).Nodup := by
  induction l with
  | nil =>
    intro c hc
    exact hc
  | cons t ts ih =>
    intro c hc
    rw [xsetUnion_cons]
    apply ih
    by_cases htc : t ∈ c
    · rw [if_pos htc]
      exact hc
    · rw [if_neg htc]
      simp [List.nodup_append, hc, htc]

theorem xsetUnion_eq_append (l : List Thread) :
    ∀ c : List Thread, l.Nodup → (∀ x ∈ l, x ∉ c) → xsetUnion c l = c ++ l := by
  induction l with
  | nil =>
    intro c _ _
    simp [xsetUnion]
  | cons t ts ih =>
    intro c hnd hdis
    rw [xsetUnion_cons, if_neg (hdis t (by simp))]
    rw [List.nodup_cons] at hnd
    rw [ih (c ++ [t]) hnd.2]
    · simp
    · intro x hx
      simp only [List.mem_append, List.mem_singleton]
      rintro (hxc | rfl)
      · exact hdis x (by simp [hx]) hxc
      · exact hnd.1 hx

theorem jsSlice_sublist (l : List α) (a b : Int) : List.Sublist (jsSlice l a b) l := by
  rw [jsSlice]
  exact (List.take_sublist _ _).trans (List.drop_sublist _ _)

theorem foldl_xsetUnion (f : String → List Thread) (toks : List String) :
    ∀ c : List Thread,
      toks.foldl (fun coll ep => xsetUnion coll (f ep)) c =
        xsetUnion c ((toks.map f).flatten) := by
  induction toks with
  | nil =>
    intro c
    rfl
  | cons t ts ih =>
    intro c
    rw [List.foldl_cons, ih (xsetUnion c (f t))]
    rw [List.map_cons, List.flatten_cons, xsetUnion_append]

/-- Claim C9 (confirmed): for every subscription, `getThreads` applied to the
string `"all"` or to the empty string returns the entire `threads` sequence
with its order unmodified. -/
theorem c9_getThreads_all_or_empty (s : Subscription) :
    s.getThreads "all" = s.threads ∧ s.getThreads "" = s.threads := by
  constructor
  · rw [Subscription.getThreads, if_pos (Or.inr rfl)]
  · rw [Subscription.getThreads, if_pos (Or.inl rfl)]

/-- Claim C4 (confirmed): for every subscription state and every candidate
thread with a non-finite `ep` element, or an empty title, or an empty link,
`Subscription.add` leaves the state (both `threads` and `latest`) unchanged
and signals a non-fatal rejection. -/
theorem c4_add_rejects_invalid (s : Subscription) (t : Thread)
    (h : (∃ e ∈ t.ep, jsIsFinite e = false) ∨ t.title = "" ∨ t.link = "") :
    s.add t = (s, false) := by
  have hc : (t.ep.all jsIsFinite && t.title != "" && t.link != "") = false := by
    rcases h with ⟨e, he, hf⟩ | h | h
    · have hall : t.ep.all jsIsFinite = false := by
        rw [List.all_eq_false]
        exact ⟨e, he, by simp [hf]⟩
      simp [hall]
    · simp [h]
    · simp [h]
  exact add_eq_neg s t (by simp [hc])

/-- Witness for C4 at a concrete input: a thread whose `ep` holds a
non-finite value is rejected and the state is unchanged. -/
theorem c4_witness : subEmpty.add thBadEp = (subEmpty, false) :=
  c4_add_rejects_invalid subEmpty thBadEp
    (Or.inl ⟨JSNum.nonfin, by decide, by decide⟩)

/-- Claim C10 (confirmed): a thread with non-empty title and link but an
empty `ep` sequence passes `Subscription.add`'s validation (the
every-element-finite check holds vacuously) and is inserted; if it becomes
the topmost thread, `latest` is recomputed as the last element of an empty
sequence, i.e. `undefined` (`none`) — not a number. -/
theorem c10_empty_ep_accepted (s : Subscription) (t : Thread) (he : t.ep = [])
    (ht : t.title ≠ "") (hl : t.link ≠ "") :
    (s.add t).2 = true ∧ t ∈ (s.add t).1.threads ∧
      ((s.add t).1.threads.head? = some t → (s.add t).1.latest = none) := by
  have hc : (t.ep.all jsIsFinite && t.title != "" && t.link != "") = true := by
    rw [he]
    simp [ht, hl]
  rw [add_eq_pos s t hc]
  refine ⟨rfl, ?_, ?_⟩
  · show t ∈ insertionSortB threadLe (s.threads ++ [t])
    rw [(insertionSortB_perm threadLe _).mem_iff]
    simp
  · intro h0
    have h0' : (insertionSortB threadLe (s.threads ++ [t])).head? = some t := h0
    show latestOf (insertionSortB threadLe (s.threads ++ [t])) = none
    rcases hts : insertionSortB threadLe (s.threads ++ [t]) with _ | ⟨u, us⟩
    · simp [hts] at h0'
    · rw [hts] at h0'
      have hut : u = t := by simpa using h0'
      rw [latestOf, hut, he]
      rfl

/-- Witness for C10 at a concrete input: the empty-`ep` thread is accepted
into the empty subscription and `latest` becomes `undefined`. -/
theorem c10_witness :
    (subEmpty.add thNoEp).2 = true ∧ thNoEp ∈ (subEmpty.add thNoEp).1.threads ∧
      ((subEmpty.add thNoEp).1.threads.head? = some thNoEp →
        (subEmpty.add thNoEp).1.latest = none) :=
  c10_empty_ep_accepted subEmpty thNoEp rfl (by decide) (by decide)

/-- Claim C7 (confirmed): for a fixed hash function, `generateSid` is
deterministic in the `(name, keywords)` pair and the existing-sid set — any
two terminating runs of the chained-rehash loop assign the same sid — and
the assigned sid is never a member of the supplied existing-sid set. -/
theorem c7_generateSid_det_fresh (hash : String → String → String) (name : String)
    (keywords : List String) (existedSids : List String) (f1 f2 : ℕ) (s1 s2 : String)
    (h1 : generateSid hash name keywords existedSids f1 = some s1)
    (h2 : generateSid hash name keywords existedSids f2 = some s2) :
    s1 = s2 ∧ s1 ∉ existedSids :=
  ⟨sidLoop_det hash name existedSids f1 f2 _ s1 s2 h1 h2,
   sidLoop_not_mem hash name existedSids f1 _ s1 h1⟩

/-- Witness for C7 at a concrete input: with a colliding existing sid the
loop rehashes once, and two runs with different fuel agree on a sid outside
the existing set. -/
theorem c7_witness : "n#n#k" = "n#n#k" ∧ "n#n#k" ∉ ["n#k"] :=
  c7_generateSid_det_fresh hashW "n" ["k"] ["n#k"] 1 2 "n#n#k" "n#n#k"
    (by decide) (by decide)

/-- Claim C3 (code bug): `Database.download` with `options.client = "ftp"`
does not fail fast — although `"ftp"` is outside the supported set, the
method builds the script path `downloaders/ftp.js` and spawns a `node`
process on it; `isSupportedClient` is never consulted. -/
theorem c3_download_spawns_unsupported_client :
    Database.isSupportedClient "ftp" = false ∧
      Database.download ⟨none, none, none⟩ thTen ⟨some "ftp", none, none⟩ =
        { cmd := "node", script := "downloaders/ftp.js", threadArg := thTen,
          destArg := none, jsonrpcArg := none } := by
  constructor
  · decide
  · decide

/-- Claim C2 (code bug): a range token whose upper boundary episode (4) is
absent from every thread silently yields a mis-sliced result (`slice(-1,
tail+1)` re-interprets the `findIndex` failure value `-1` as the last
index), with no error surfaced: the call returns `[thTwoB]` — neither the
requested range nor an error. -/
theorem c2_range_missing_boundary_silent :
    subThreeTwo.getThreads "2..4" = [thTwoB] ∧
      (subThreeTwo.threads.all fun th => !(th.ep.contains (JSNum.fin 4))) = true := by
  constructor
  · decide
  · decide

/-- Counterexample to claim C1 as stated: on a subscription holding threads
for episodes 10 and 2 (both boundary values present), the token `2..10`
returns the empty list, not the inclusive slice from the first thread
containing `hi = 10` through the first thread containing `lo = 2` (which is
`[thTen, thTwo]`): the default JS sort orders the parsed endpoints
lexicographically (`"10" < "2"`), swapping the roles of the boundaries. -/
theorem c1_counterexample_lex_range :
    subTenTwo.getThreads "2..10" = [] ∧
      jsSlice subTenTwo.threads
        (findIndexJS (fun th => epContains th.ep (some (JSNum.fin 10))) subTenTwo.threads)
        (findIndexJS (fun th => epContains th.ep (some (JSNum.fin 2))) subTenTwo.threads + 1) =
        [thTen, thTwo] ∧
      ([] : List Thread) ≠ [thTen, thTwo] := by
  refine ⟨by decide, by decide, by decide⟩

/-- Claim C5 (confirmed): starting from the empty thread list, after any
finite sequence of `add`/`sort` calls whose added threads respect the data
model's non-empty `ep` constraint (spec §3; C10 records the empty-`ep`
hole), the `threads` sequence is sorted by descending `ep[0]`. -/
theorem c5_threads_sorted_desc (s : Subscription) (h0 : s.threads = [])
    (ops : List Op) (hops : ops.all opEpNonempty = true) :
    sortedByEpDesc (runOps s ops).threads := by
  have hok : SubThreadsOk s := by
    constructor
    · rw [h0]
      intro t ht
      simp at ht
    · rw [h0]
      exact List.Pairwise.nil
  exact (runOps_threadsOk ops s hops hok).2

/-- Witness for C5 at a concrete input: Scenario A's two adds leave the
threads sorted newest-first. -/
theorem c5_witness :
    sortedByEpDesc (runOps subEmpty [Op.add thE1, Op.add thE2]).threads :=
  c5_threads_sorted_desc subEmpty rfl [Op.add thE1, Op.add thE2] (by decide)

/-- Claim C6 (confirmed): starting from the empty thread list with
`latest = -1`, after any finite sequence of `add`/`sort` calls whose added
threads respect the data model's non-empty `ep` constraint, `latest` equals
the last element of the topmost thread's `ep`, or `-1` when `threads` is
empty. -/
theorem c6_latest_matches_top (s : Subscription) (h0 : s.threads = [])
    (hlat : s.latest = some (JSNum.fin (-1)))
    (ops : List Op) (hops : ops.all opEpNonempty = true) :
    ((runOps s ops).threads = [] → (runOps s ops).latest = some (JSNum.fin (-1))) ∧
      ∀ t0, (runOps s ops).threads.head? = some t0 →
        (runOps s ops).latest = t0.ep.getLast? := by
  have hok : SubThreadsOk s := by
    constructor
    · rw [h0]
      intro t ht
      simp at ht
    · rw [h0]
      exact List.Pairwise.nil
  have hlok : SubLatestOk s := by
    constructor
    · intro _
      exact hlat
    · intro t0 ht0
      rw [h0] at ht0
      simp at ht0
  exact runOps_latestOk ops s hops hok hlok

/-- Witness for C6 at a concrete input: after Scenario A's adds, `latest`
equals the last `ep` entry of the topmost thread (and the empty case holds
vacuously). -/
theorem c6_witness :
    ((runOps subEmpty [Op.add thE1, Op.add thE2]).threads = [] →
      (runOps subEmpty [Op.add thE1, Op.add thE2]).latest = some (JSNum.fin (-1))) ∧
      ∀ t0, (runOps subEmpty [Op.add thE1, Op.add thE2]).threads.head? = some t0 →
        (runOps subEmpty [Op.add thE1, Op.add thE2]).latest = t0.ep.getLast? :=
  c6_latest_matches_top subEmpty rfl rfl [Op.add thE1, Op.add thE2] (by decide)

/-- Claim C8 (confirmed): for every selector that goes through comma-token
resolution (anything but the `"all"`/empty fast path), the result of
`getThreads` contains no thread twice, and it equals the first-encounter
de-duplicated union (`xsetUnion` from the empty collection) of the
per-token results evaluated left to right — so threads appear in the order
each was first produced, with no re-sorting after the union. -/
theorem c8_getThreads_nodup_first_encounter (s : Subscription) (epstr : String)
    (h1 : epstr ≠ "") (h2 : epstr ≠ "all") :
    (s.getThreads epstr).Nodup ∧
      s.getThreads epstr =
        xsetUnion [] (((splitChar ',' epstr.data).map (resolveToken s)).flatten) := by
  have hni : ¬(epstr = "" ∨ epstr = "all") := by
    rintro (h | h)
    · exact h1 h
    · exact h2 h
  have hg : s.getThreads epstr =
      xsetUnion [] (((splitChar ',' epstr.data).map (resolveToken s)).flatten) := by
    rw [Subscription.getThreads, if_neg hni]
    exact foldl_xsetUnion (resolveToken s) (splitChar ',' epstr.data) []
  refine ⟨?_, hg⟩
  rw [hg]
  exact xsetUnion_nodup _ [] List.nodup_nil

/-- Witness for C8 at a concrete input: the overlapping selector `2,2,10`
yields each matching thread once, in first-encounter order. -/
theorem c8_witness :
    (subTenTwo.getThreads "2,2,10").Nodup ∧
      subTenTwo.getThreads "2,2,10" =
        xsetUnion []
          (((splitChar ',' "2,2,10".data).map (resolveToken subTenTwo)).flatten) :=
  c8_getThreads_nodup_first_encounter subTenTwo "2,2,10" (by decide) (by decide)

theorem resolveToken_tok_2_10 (s : Subscription) :
    resolveToken s "2..10" =
      jsSlice s.threads
        (findIndexJS (fun th => epContains th.ep (some (JSNum.fin 2))) s.threads)
        (findIndexJS (fun th => epContains th.ep (some (JSNum.fin 10))) s.threads + 1) := by
  have hfin : jsIsFinite (jsNumber "2..10") = false := by decide
  have hparts : insertionSortB strNumLe ((splitDots "2..10").map jsNumber) =
      [JSNum.fin 10, JSNum.fin 2] := by decide
  simp only [resolveToken, hfin, Bool.false_eq_true, if_false, hparts]
  rfl

theorem resolveToken_tok_10_2 (s : Subscription) :
    resolveToken s "10..2" =
      jsSlice s.threads
        (findIndexJS (fun th => epContains th.ep (some (JSNum.fin 2))) s.threads)
        (findIndexJS (fun th => epContains th.ep (some (JSNum.fin 10))) s.threads + 1) := by
  have hfin : jsIsFinite (jsNumber "10..2") = false := by decide
  have hparts : insertionSortB strNumLe ((splitDots "10..2").map jsNumber) =
      [JSNum.fin 10, JSNum.fin 2] := by decide
  simp only [resolveToken, hfin, Bool.false_eq_true, if_false, hparts]
  rfl

/-- Claim C1 as amended (corrected): the range token's endpoints are ordered
by the DEFAULT JS sort — lexicographic comparison of their string forms —
not numerically, so `2..10` sorts to `[epi, epj] = [10, 2]` (because
`"10" < "2"`) and the returned slice runs from the first thread whose `ep`
contains 2 to the first thread whose `ep` contains 10; in particular
`2..10` does resolve to the same set of threads as `10..2`, but when the
lexicographic and numeric orders of the endpoints disagree the slice is not
the numeric inclusive range (for distinct matching threads it is empty). -/
theorem c1_amended_lex_order (s : Subscription) (hnd : s.threads.Nodup) :
    s.getThreads "2..10" = s.getThreads "10..2" ∧
      s.getThreads "2..10" =
        jsSlice s.threads
          (findIndexJS (fun th => epContains th.ep (some (JSNum.fin 2))) s.threads)
          (findIndexJS (fun th => epContains th.ep (some (JSNum.fin 10))) s.threads + 1) := by
  have h1 : s.getThreads "2..10" = xsetUnion [] (resolveToken s "2..10") := by
    rw [Subscription.getThreads, if_neg (by decide)]
    have hsp : splitChar ',' "2..10".data = ["2..10"] := by decide
    rw [hsp, List.foldl_cons, List.foldl_nil]
  have h2 : s.getThreads "10..2" = xsetUnion [] (resolveToken s "10..2") := by
    rw [Subscription.getThreads, if_neg (by decide)]
    have hsp : splitChar ',' "10..2".data = ["10..2"] := by decide
    rw [hsp, List.foldl_cons, List.foldl_nil]
  have hslice : ∀ a b : Int,
      xsetUnion [] (jsSlice s.threads a b) = jsSlice s.threads a b := by
    intro a b
    have hnds : (jsSlice s.threads a b).Nodup := (jsSlice_sublist _ _ _).nodup hnd
    have happ := xsetUnion_eq_append (jsSlice s.threads a b) [] hnds (by simp)
    simpa using happ
  constructor
  · rw [h1, h2, resolveToken_tok_2_10 s, resolveToken_tok_10_2 s]
  · rw [h1, resolveToken_tok_2_10 s, hslice]

/-- Witness for the amended C1 at a concrete input: with both boundary
episodes present, `2..10` and `10..2` agree and equal the lexicographically
ordered slice (which here is empty). -/
theorem c1_amended_witness :
    subTenTwo.getThreads "2..10" = subTenTwo.getThreads "10..2" ∧
      subTenTwo.getThreads "2..10" =
        jsSlice subTenTwo.threads
          (findIndexJS (fun th => epContains th.ep (some (JSNum.fin 2))) subTenTwo.threads)
          (findIndexJS (fun th => epContains th.ep (some (JSNum.fin 10))) subTenTwo.threads + 1) :=
  c1_amended_lex_order subTenTwo (by decide)
